import Mathlib

/-!
# Verification of the aisubs asynchronous subtitle-translation pipeline

Shallow embedding of the core of the `aisubs` repository:

* the output-path deriver `deriveOutputPath` (Go file `part_005`,
  functions `deriveOutputPath`, `lastIndexOf`, `hasAnySuffix`, `max`);
* the batched translation engine `TranslateSubtitles` (same file);
* the job store (`JobManager` in `main.go`) and the orchestrator
  `ProcessJob`;
* a trace model of the engine's semaphore-bounded concurrency.

Paths are modelled as `List Char`, Go `float64` progress values as `ℚ`
(all values handled are exactly representable), Go `int` as `ℤ` or `ℕ`
as appropriate, and Go errors as `Except String` / `Option`.
-/

/-! ## Output path derivation (Go `deriveOutputPath` and helpers) -/

/-- The eight language-suffix literals used by `deriveOutputPath`. -/
def engHiDot : List Char := ".eng.hi".toList

def enHiDot : List Char := ".en.hi".toList

def engHiUnd : List Char := "_eng.hi".toList

def enHiUnd : List Char := "_en.hi".toList

def engDot : List Char := ".eng".toList

def enDot : List Char := ".en".toList

def engUnd : List Char := "_eng".toList

def enUnd : List Char := "_en".toList

/-- Go `hasAnySuffix` for one suffix:
`len(s) >= len(suffix) && s[len(s)-len(suffix):] == suffix`. -/
def hasSuffixGo (s suffix : List Char) : Bool :=
  decide (suffix.length ≤ s.length) && (s.drop (s.length - suffix.length) == suffix)

/-- Go `hasAnySuffix(s, suffixes...)`. -/
def hasAnySuffix (s : List Char) (suffixes : List (List Char)) : Bool :=
  suffixes.any (hasSuffixGo s)

/-- The descending scan of Go `lastIndexOf`, starting at index `i`:
`for i := len(s) - len(substr); i >= 0; i-- { if s[i:i+len(substr)] == substr { return i } }`. -/
def lastIndexFrom (s sub : List Char) : ℕ → ℤ
  | 0 => if sub.isPrefixOf s then 0 else -1
  | i + 1 => if sub.isPrefixOf (s.drop (i + 1)) then (i + 1 : ℤ) else lastIndexFrom s sub i

/-- Go `lastIndexOf(s, substr)`: index of the last occurrence, `-1` if absent. -/
def lastIndexOf (s sub : List Char) : ℤ :=
  if sub.length ≤ s.length then lastIndexFrom s sub (s.length - sub.length) else -1

/-- Go's local `max(a, b int) int`. -/
def maxGo (a b : ℤ) : ℤ := if a > b then a else b

/-- The descending scan of the extension-finding loop in `deriveOutputPath`:
`for i := len(inputPath) - 1; i >= 0; i-- { if inputPath[i] == '.' { lastDotIndex = i; break } }`. -/
def findLastDotFrom (s : List Char) : ℕ → ℤ
  | 0 => if s[0]? == some '.' then (0 : ℤ) else -1
  | i + 1 => if s[i + 1]? == some '.' then (i + 1 : ℤ) else findLastDotFrom s i

/-- Index of the last `'.'` in the path, `-1` when there is none. -/
def findLastDot (s : List Char) : ℤ :=
  if s.length = 0 then -1 else findLastDotFrom s (s.length - 1)

/-- Go `deriveOutputPath`: replaces a trailing language segment of the
extension-stripped base by `pl`, or appends `.pl` when none qualifies. -/
def deriveOutputPath (inputPath : List Char) : List Char :=
  let lastDotIndex := findLastDot inputPath
  if lastDotIndex = -1 then inputPath ++ ".pl".toList
  else
    let basePath := inputPath.take lastDotIndex.toNat
    let extension := inputPath.drop lastDotIndex.toNat
    if hasAnySuffix basePath [engHiDot, enHiDot] then
      let idx := maxGo (lastIndexOf basePath engHiDot) (lastIndexOf basePath enHiDot)
      basePath.take idx.toNat ++ ".pl".toList ++ extension
    else if hasAnySuffix basePath [engHiUnd, enHiUnd] then
      let idx := maxGo (lastIndexOf basePath engHiUnd) (lastIndexOf basePath enHiUnd)
      basePath.take idx.toNat ++ "_pl".toList ++ extension
    else if hasAnySuffix basePath [engDot, enDot] then
      let idx := maxGo (lastIndexOf basePath engDot) (lastIndexOf basePath enDot)
      basePath.take idx.toNat ++ ".pl".toList ++ extension
    else if hasAnySuffix basePath [engUnd, enUnd] then
      let idx := maxGo (lastIndexOf basePath engUnd) (lastIndexOf basePath enUnd)
      basePath.take idx.toNat ++ "_pl".toList ++ extension
    else basePath ++ ".pl".toList ++ extension

/-- The spec's wording of §4.4, for comparison with the code: split off the
final extension; then, in priority order, if the base **ends with** a
qualifying suffix, replace that whole terminal suffix; otherwise append a
`.pl` segment. -/
def deriveOutputPathSpec (inputPath : List Char) : List Char :=
  let lastDotIndex := findLastDot inputPath
  if lastDotIndex = -1 then inputPath ++ ".pl".toList
  else
    let basePath := inputPath.take lastDotIndex.toNat
    let extension := inputPath.drop lastDotIndex.toNat
    if engHiDot.isSuffixOf basePath then
      basePath.take (basePath.length - 7) ++ ".pl".toList ++ extension
    else if enHiDot.isSuffixOf basePath then
      basePath.take (basePath.length - 6) ++ ".pl".toList ++ extension
    else if engHiUnd.isSuffixOf basePath then
      basePath.take (basePath.length - 7) ++ "_pl".toList ++ extension
    else if enHiUnd.isSuffixOf basePath then
      basePath.take (basePath.length - 6) ++ "_pl".toList ++ extension
    else if engDot.isSuffixOf basePath then
      basePath.take (basePath.length - 4) ++ ".pl".toList ++ extension
    else if enDot.isSuffixOf basePath then
      basePath.take (basePath.length - 3) ++ ".pl".toList ++ extension
    else if engUnd.isSuffixOf basePath then
      basePath.take (basePath.length - 4) ++ "_pl".toList ++ extension
    else if enUnd.isSuffixOf basePath then
      basePath.take (basePath.length - 3) ++ "_pl".toList ++ extension
    else basePath ++ ".pl".toList ++ extension

/-! ## Translation batch engine (Go `Translator.TranslateSubtitles`)

The subtitle entries handed to the engine are `astisub.Item` values (the
external subtitle codec's representation); the provider request/response
shape is the file's own `Subtitle`/`Line`/`LineItem` structs. -/

namespace Astisub

/-- `astisub.LineItem`: a text run. `style` stands for the run's non-text
fields (`InlineStyle`, `Style`), which the engine never touches. -/
structure LineItem where
  style : String
  text : String
deriving DecidableEq

/-- `astisub.Line`: one line of a caption, with its `VoiceName` and runs. -/
structure Line where
  voiceName : String
  items : List LineItem
deriving DecidableEq

/-- `astisub.Item`: one timed caption entry. `startAt`/`endAt` stand for the
timing fields, which the engine never touches. -/
structure Item where
  index : ℤ
  startAt : ℤ
  endAt : ℤ
  lines : List Line
deriving DecidableEq

end Astisub

/-- `LineItem` of the provider request/response shape. -/
structure LineItem where
  text : String
deriving DecidableEq

/-- `Line` of the provider request/response shape. -/
structure Line where
  items : List LineItem
deriving DecidableEq

/-- `Subtitle` of the provider request/response shape. -/
structure Subtitle where
  index : ℤ
  lines : List Line
deriving DecidableEq

/-- The serialization step of `translateBatch`: convert one `astisub.Item`
into the request shape (index plus nested lines/runs of text). -/
def itemToSubtitle (it : Astisub.Item) : Subtitle :=
  { index := it.index
    lines := it.lines.map fun l => { items := l.items.map fun x => { text := x.text } } }

/-- Go `int(math.Ceil(float64(n) / float64(batchSize)))` for `batchSize > 0`. -/
def batchCount (n batchSize : ℕ) : ℕ := (n + batchSize - 1) / batchSize

/-- The `i`-th contiguous batch: `subs.Items[i*batchSize : min((i+1)*batchSize, n)]`. -/
def batchOf (items : List Astisub.Item) (batchSize i : ℕ) : List Astisub.Item :=
  (items.drop (i * batchSize)).take batchSize

/-- The per-batch provider outcomes that actually arrive on the results
channel: the response lists of the batches whose `translateBatch` call
succeeded, in batch order. `responses i` is batch `i`'s parsed response
(`none` models a failed provider call, whose error is only logged). -/
def batchResults (items : List Astisub.Item) (batchSize : ℕ)
    (responses : ℕ → Option (List Subtitle)) : List (List Subtitle) :=
  (List.range (batchCount items.length batchSize)).filterMap responses

/-- An arrival order of the per-batch results is any permutation of the
successful batches' result lists (goroutines complete in any order). -/
def validArrival (items : List Astisub.Item) (batchSize : ℕ)
    (responses : ℕ → Option (List Subtitle)) (arrival : List (List Subtitle)) : Prop :=
  arrival.Perm (batchResults items batchSize responses)

/-- The reassembly sort `sort.Slice(allTranslations, ...Index < ...Index)`,
modelled as an insertion sort by index (one admissible result of the
unstable Go sort). -/
def sortByIndex (l : List Subtitle) : List Subtitle :=
  l.insertionSort fun a b => a.index ≤ b.index

/-- The in-place overwrite of one entry from one translation: line-by-line,
run-by-run, by position, skipping positions beyond the translation's
line/run counts. -/
def applyItem (it : Astisub.Item) (tr : Subtitle) : Astisub.Item :=
  { it with
    lines := it.lines.mapIdx fun i line =>
      match tr.lines[i]? with
      | some tl =>
          { line with
            items := line.items.mapIdx fun j x =>
              match tl.items[j]? with
              | some tx => { x with text := tx.text }
              | none => x }
      | none => line }

/-- The merge loop of `TranslateSubtitles`: for each original entry, apply
the first translation with a matching index (the inner loop `break`s after
the first match); entries with no match are left unmodified. -/
def applyTranslations (items : List Astisub.Item) (translations : List Subtitle) :
    List Astisub.Item :=
  items.map fun it =>
    match translations.find? (fun tr => tr.index == it.index) with
    | some tr => applyItem it tr
    | none => it

/-- Go `TranslateSubtitles`, as a function of the batch outcomes and of the
arrival order of the successful results. Batch errors are only logged, so the
call always returns without error (`.ok`). -/
def TranslateSubtitles (items : List Astisub.Item) (batchSize : ℕ)
    (responses : ℕ → Option (List Subtitle)) (arrival : List (List Subtitle)) :
    Except String (List Astisub.Item) :=
  Except.ok (applyTranslations items (sortByIndex arrival.flatten))

/-! ## Job entity and job store (Go `Job`, `JobManager` in main.go)

Timestamps (`time.Now()`) are modelled as an abstract `ℕ` clock value
passed to every mutator; the orchestrator's apply loop ticks it once per
operation. Go's zero string `""` plays the role of an unset result field,
exactly as in the `omitempty`-serialized `JobResult`. -/

/-- Go `JobStatus`. -/
inductive JobStatus
  | pending
  | processing
  | completed
  | failed
  | extracting
  | translating
deriving DecidableEq

/-- A status is terminal iff it is `completed` or `failed`. -/
def JobStatus.isTerminal : JobStatus → Bool
  | .completed => true
  | .failed => true
  | _ => false

/-- Go `JobResult` (zero value: both fields empty). -/
structure JobResult where
  outputPath : String
  error : String
deriving DecidableEq

/-- Go `Job`. -/
structure Job where
  id : String
  status : JobStatus
  progress : ℚ
  path : String
  trackIndex : ℤ
  result : JobResult
  createdAt : ℕ
  updatedAt : ℕ
deriving DecidableEq

/-- The `jobs map[string]*Job` registry, as an association list with
map semantics (first binding wins, keys kept unique by construction). -/
abbrev JobStore := List (String × Job)

/-- Go map read `jm.jobs[id]`. -/
def lookupJob : JobStore → String → Option Job
  | [], _ => none
  | (k, j) :: rest, id => if k = id then some j else lookupJob rest id

/-- In-place mutation of the job stored under `id` (a no-op when the id is
unknown, in which case the Go mutators return a `job not found` error). -/
def updateJob : JobStore → String → (Job → Job) → JobStore
  | [], _, _ => []
  | (k, j) :: rest, id, f =>
      if k = id then (k, f j) :: rest else (k, j) :: updateJob rest id f

/-- Go map write `jm.jobs[id] = job` (overwrites any previous binding). -/
def insertJob (st : JobStore) (id : String) (j : Job) : JobStore :=
  (id, j) :: st.filter fun p => ¬(p.1 = id)

/-- Go `CreateJob`: a fresh pending job with progress 0, empty result and
equal creation/update timestamps. -/
def createJob (st : JobStore) (id path : String) (trackIndex : ℤ) (now : ℕ) : JobStore :=
  insertJob st id
    { id := id
      status := .pending
      progress := 0
      path := path
      trackIndex := trackIndex
      result := { outputPath := "", error := "" }
      createdAt := now
      updatedAt := now }

/-- Go `UpdateJobStatus`. -/
def updateJobStatus (st : JobStore) (id : String) (status : JobStatus) (now : ℕ) : JobStore :=
  updateJob st id fun j => { j with status := status, updatedAt := now }

/-- Go `UpdateJobProgress`. -/
def updateJobProgress (st : JobStore) (id : String) (progress : ℚ) (now : ℕ) : JobStore :=
  updateJob st id fun j => { j with progress := progress, updatedAt := now }

/-- Go `SetJobResult`: forces status `completed` and progress 100 and writes
the output path (the error field is not cleared). -/
def setJobResult (st : JobStore) (id outputPath : String) (now : ℕ) : JobStore :=
  updateJob st id fun j =>
    { j with
      status := .completed
      progress := 100
      result := { j.result with outputPath := outputPath }
      updatedAt := now }

/-- Go `SetJobError`: forces status `failed` and writes the error message
(progress and output path are not touched). -/
def setJobError (st : JobStore) (id msg : String) (now : ℕ) : JobStore :=
  updateJob st id fun j =>
    { j with
      status := .failed
      result := { j.result with error := msg }
      updatedAt := now }

/-- One store operation, as issued by callers of the `JobManager` API. -/
inductive StoreOp
  | create (id path : String) (trackIndex : ℤ)
  | setStatus (id : String) (status : JobStatus)
  | setProgress (id : String) (progress : ℚ)
  | setResult (id outputPath : String)
  | setError (id msg : String)
deriving DecidableEq

/-- Apply one operation at clock value `now`. -/
def applyOp (st : JobStore) (op : StoreOp) (now : ℕ) : JobStore :=
  match op with
  | .create id path trackIndex => createJob st id path trackIndex now
  | .setStatus id status => updateJobStatus st id status now
  | .setProgress id p => updateJobProgress st id p now
  | .setResult id outputPath => setJobResult st id outputPath now
  | .setError id msg => setJobError st id msg now

/-- Apply a sequence of operations, ticking the clock once per operation. -/
def applyOps (st : JobStore) (now : ℕ) : List StoreOp → JobStore
  | [] => st
  | op :: rest => applyOps (applyOp st op now) (now + 1) rest

/-- The spec's terminal-result invariant for one job, in the claim's precise
form: a completed job has exactly the output path set, a failed job exactly
the error message, and a non-terminal job has neither set. -/
def jobResultInvariant (j : Job) : Bool :=
  match j.status with
  | .completed => decide (j.result.outputPath ≠ "") && decide (j.result.error = "")
  | .failed => decide (j.result.error ≠ "") && decide (j.result.outputPath = "")
  | _ => decide (j.result.outputPath = "") && decide (j.result.error = "")

/-- The invariant over every job of the store. -/
def storeInvariant (st : JobStore) : Bool :=
  st.all fun p => jobResultInvariant p.2

/-- The discipline under which the orchestrator actually drives the store:
`UpdateJobStatus` is only used with non-terminal statuses on non-terminal
jobs, and `SetJobResult`/`SetJobError` carry a non-empty payload and hit a
job that is not yet terminal. -/
def wellFormedOp (st : JobStore) (op : StoreOp) : Bool :=
  match op with
  | .create _ _ _ => true
  | .setProgress _ _ => true
  | .setStatus id status =>
      !status.isTerminal &&
        match lookupJob st id with
        | some j => !j.status.isTerminal
        | none => true
  | .setResult id outputPath =>
      decide (outputPath ≠ "") &&
        match lookupJob st id with
        | some j => !j.status.isTerminal
        | none => true
  | .setError id msg =>
      decide (msg ≠ "") &&
        match lookupJob st id with
        | some j => !j.status.isTerminal
        | none => true

/-- A sequence of operations each well formed in the store it reaches. -/
def wellFormedOps (st : JobStore) (now : ℕ) : List StoreOp → Bool
  | [] => true
  | op :: rest => wellFormedOp st op && wellFormedOps (applyOp st op now) (now + 1) rest

/-! ## Job pipeline orchestrator (Go `ProcessJob` in main.go)

`ProcessJob` is modelled as the sequence of store operations it issues,
parameterized by the outcomes of its external collaborators (file-type
detector, ffmpeg, translator) and by the engine's progress events. Channel
forwarding of progress values is sequentialized in program order. -/

/-- Go `FileType` (fileutils.go). -/
inductive FileType
  | unknown
  | mkv
  | mp4
  | avi
  | subtitleSRT
  | subtitleSSA
  | subtitleASS
deriving DecidableEq

/-- Go `FileType.IsVideo`. -/
def FileType.isVideo : FileType → Bool
  | .mkv => true
  | .mp4 => true
  | .avi => true
  | _ => false

/-- Go `FileType.IsSubtitle`. -/
def FileType.isSubtitle : FileType → Bool
  | .subtitleSRT => true
  | .subtitleSSA => true
  | .subtitleASS => true
  | _ => false

/-- `deriveOutputPath` on `String` (the orchestrator calls it on paths). -/
def deriveOutputPathStr (s : String) : String :=
  String.mk (deriveOutputPath s.toList)

/-- The rescaling `scaledProgress := 20.0 + (progress * 0.75)` applied by
`ProcessJob` to every engine progress event during the translating phase. -/
def scaledProgress (p : ℚ) : ℚ := 20 + p * 0.75

/-- Outcomes of the external collaborators during one `ProcessJob` run. -/
structure OrchEnv where
  detect : Except String FileType
  fileExists : Bool
  ffmpegInit : Except String Unit
  tracks : Except String ℕ
  extractResult : Except String String
  extractedExists : Bool
  engineProgress : List ℚ
  translateResult : Except String Unit

/-- The translating phase: set status `translating`, forward each engine
progress event rescaled, then either record the error or finish with
progress 99, the result (output path), and progress 100. -/
def translatingOps (id extractedPath : String) (env : OrchEnv) : List StoreOp :=
  [StoreOp.setStatus id .translating] ++
    env.engineProgress.map (fun p => StoreOp.setProgress id (scaledProgress p)) ++
    match env.translateResult with
    | .error e => [StoreOp.setError id ("error translating subtitles: " ++ e)]
    | .ok _ =>
        [StoreOp.setProgress id 99,
         StoreOp.setResult id (deriveOutputPathStr extractedPath),
         StoreOp.setProgress id 100]

/-- The store operations issued by one `ProcessJob` run for `job`, in
program order. `env.tracks` is the number of subtitle tracks ffmpeg lists. -/
def processJobOps (job : Job) (env : OrchEnv) : List StoreOp :=
  [StoreOp.setStatus job.id .processing, StoreOp.setProgress job.id 0] ++
    match env.detect with
    | .error e => [StoreOp.setError job.id ("error detecting file type: " ++ e)]
    | .ok ft =>
        [StoreOp.setProgress job.id 1] ++
          if ft.isVideo then
            if !env.fileExists then
              [StoreOp.setError job.id ("video file does not exist: " ++ job.path)]
            else
              match env.ffmpegInit with
              | .error e => [StoreOp.setError job.id ("error initializing FFmpeg: " ++ e)]
              | .ok _ =>
                  [StoreOp.setStatus job.id .extracting] ++
                    match env.tracks with
                    | .error e =>
                        [StoreOp.setError job.id ("error listing subtitle tracks: " ++ e)]
                    | .ok trackCount =>
                        if trackCount = 0 then
                          [StoreOp.setError job.id "no subtitle tracks found in the media file"]
                        else if job.trackIndex < 0 ∨ (trackCount : ℤ) ≤ job.trackIndex then
                          [StoreOp.setError job.id "invalid track index"]
                        else
                          [StoreOp.setProgress job.id 2] ++
                            match env.extractResult with
                            | .error e =>
                                [StoreOp.setError job.id
                                  ("error extracting subtitle track: " ++ e)]
                            | .ok extractedPath =>
                                if !env.extractedExists then
                                  [StoreOp.setError job.id
                                    ("extracted subtitle file does not exist: " ++ extractedPath)]
                                else
                                  [StoreOp.setProgress job.id 20] ++
                                    translatingOps job.id extractedPath env
          else if ft.isSubtitle then
            if !env.fileExists then
              [StoreOp.setError job.id ("subtitle file does not exist: " ++ job.path)]
            else
              [StoreOp.setProgress job.id 20] ++ translatingOps job.id job.path env
          else [StoreOp.setError job.id "unsupported file type"]

/-! ## Engine progress reporting -/

/-- Modelled from the spec: the progress reporting of the translator
(`Translator.SetProgressChannel` and the per-completed-batch report inside
the translating loop). The source file defining it is not in the repository
snapshot — only its caller `ProcessJob` (main.go) references
`SetProgressChannel`. §4.3: "Progress is reported once per completed batch
as `completedBatches / totalBatches * 100`", in completion order. -/
def engineProgressEvents (totalBatches : ℕ) : List ℚ :=
  (List.range totalBatches).map fun completed : ℕ =>
    (((completed : ℚ) + 1) / (totalBatches : ℚ)) * 100

/-! ## Bounded concurrency of the engine (trace model)

The synchronization skeleton of `TranslateSubtitles`: a buffered channel
`semaphore` of capacity `concurrencyLimit` used as a counting permit pool.
For batch task `i` the trace records `(i, acquire)` (the `semaphore <- ...`
send in the launch loop), `(i, callStart)`/`(i, callEnd)` (the provider call
`translateBatch` inside the goroutine) and `(i, release)` (the deferred
`<-semaphore`). -/

inductive EvKind
  | acquire
  | callStart
  | callEnd
  | release
deriving DecidableEq

/-- One scheduling event: which batch task, and what happened. -/
abbrev SchedEvent := ℕ × EvKind

/-- Number of events of task `i` and kind `k` in a trace. -/
def countEv (t : List SchedEvent) (i : ℕ) (k : EvKind) : ℕ :=
  (t.filter fun e => e == (i, k)).length

/-- Number of events of kind `k` in a trace. -/
def countKind (t : List SchedEvent) (k : EvKind) : ℕ :=
  (t.filter fun e => e.2 == k).length

/-- Permits held after a trace: acquires minus releases. -/
def heldAfter (t : List SchedEvent) : ℤ :=
  (countKind t .acquire : ℤ) - (countKind t .release : ℤ)

/-- Provider calls in flight after a trace: tasks whose call has started
but not ended. -/
def inFlight (t : List SchedEvent) : ℕ :=
  (((t.map Prod.fst).toFinset).filter fun i =>
    countEv t i .callEnd < countEv t i .callStart).card

/-- The per-task discipline of the engine's goroutines, checked on every
prefix of the trace: a task acquires at most once, calls the provider only
while holding its permit, and releases only after the call has returned
(tasks not appearing in a prefix satisfy this trivially). -/
def taskDisciplined (t : List SchedEvent) : Bool :=
  t.inits.all fun p => ((p.map Prod.fst).dedup).all fun i =>
    decide (countEv p i .callStart ≤ countEv p i .acquire) &&
    decide (countEv p i .callEnd ≤ countEv p i .callStart) &&
    decide (countEv p i .release ≤ countEv p i .callEnd) &&
    decide (countEv p i .acquire ≤ 1)

/-- The buffered-channel admission rule: a send on `semaphore` (an acquire)
can only happen while fewer than `limit` permits are outstanding. -/
def semaphoreValid (limit : ℕ) (t : List SchedEvent) : Bool :=
  t.inits.all fun p =>
    match p.getLast? with
    | some e => if e.2 = EvKind.acquire then decide (heldAfter p.dropLast < limit) else true
    | none => true

/-- A schedule of three batch tasks under concurrency limit 2, used by the
C4 witness. -/
def wTrace4 : List SchedEvent :=
  [(0, .acquire), (1, .acquire), (0, .callStart), (0, .callEnd), (0, .release),
   (2, .acquire), (1, .callStart), (2, .callStart), (2, .callEnd), (2, .release),
   (1, .callEnd), (1, .release)]

/-! ## Concrete fixtures used by witnesses and counterexamples -/

/-- A job in mid-translation, used by witnesses. -/
def sampleJob : Job :=
  { id := "j"
    status := .translating
    progress := 42
    path := "a.srt"
    trackIndex := 0
    result := { outputPath := "", error := "" }
    createdAt := 5
    updatedAt := 6 }

/-- A one-job store, used by witnesses. -/
def sampleStore : JobStore := [("j", sampleJob)]

/-- A freshly created pending job for a video path, used by the C9
counterexample. -/
def cexJob9 : Job :=
  { id := "j"
    status := .pending
    progress := 0
    path := "v.mkv"
    trackIndex := 0
    result := { outputPath := "", error := "" }
    createdAt := 0
    updatedAt := 0 }

/-- The store holding just `cexJob9`. -/
def cexStore9 : JobStore := [("j", cexJob9)]

/-- An environment in which file-type detection fails. -/
def detectFailEnv : OrchEnv :=
  { detect := .error "boom"
    fileExists := true
    ffmpegInit := .ok ()
    tracks := .ok 1
    extractResult := .ok "x"
    extractedExists := true
    engineProgress := []
    translateResult := .ok () }

/-- C7 counterexample operations: reach a terminal status through
`UpdateJobStatus` instead of `SetJobResult`/`SetJobError`. -/
def cexOps7 : List StoreOp :=
  [StoreOp.create "j" "p" 0, StoreOp.setStatus "j" .completed]

/-- A well-formed operation sequence for the C7 witness. -/
def wfOps7 : List StoreOp :=
  [StoreOp.create "j" "p" 0, StoreOp.setStatus "j" .processing,
   StoreOp.setResult "j" "out.pl.srt"]

/-- A one-line, one-run subtitle entry with the given index and text. -/
def mkItem (idx : ℤ) (text : String) : Astisub.Item :=
  { index := idx
    startAt := 0
    endAt := 1
    lines := [{ voiceName := "", items := [{ style := "", text := text }] }] }

/-- A one-line, one-run translation with the given index and text. -/
def mkTr (idx : ℤ) (text : String) : Subtitle :=
  { index := idx, lines := [{ items := [{ text := text }] }] }

/-- C3 counterexample input: two entries with indices 1 and 2. -/
def cexItems3 : List Astisub.Item := [mkItem 1 "x", mkItem 2 "y"]

/-- C3 counterexample batch outcomes: the provider returns index 1 for both
batches (a response whose index strays outside its own batch). -/
def cexResp3 : ℕ → Option (List Subtitle) :=
  fun i => if i = 0 then some [mkTr 1 "a"] else some [mkTr 1 "b"]

/-- C2 counterexample input: two entries sharing index 1. -/
def cexItems2 : List Astisub.Item := [mkItem 1 "hello", mkItem 1 "world"]

/-- C2 counterexample batch outcomes: batch 0 fails, batch 1 succeeds with a
faithful translation of its own (duplicate-index) entry. -/
def cexResp2 : ℕ → Option (List Subtitle) :=
  fun i => if i = 0 then none else some [mkTr 1 "świat"]

/-- C2 witness input: three entries with distinct indices. -/
def wItems2 : List Astisub.Item := [mkItem 1 "x", mkItem 2 "y", mkItem 3 "z"]

/-- C2 witness batch outcomes: the middle batch fails. -/
def wResp2 : ℕ → Option (List Subtitle) :=
  fun i => if i = 0 then some [mkTr 1 "a"] else if i = 2 then some [mkTr 3 "c"] else none

/-- C2 witness arrival order. -/
def wArr2 : List (List Subtitle) := [[mkTr 1 "a"], [mkTr 3 "c"]]

/-! ## Basic store lemmas -/

theorem lookupJob_updateJob_self (st : JobStore) (id : String) (f : Job → Job) :
    lookupJob (updateJob st id f) id = (lookupJob st id).map f := by
  induction st with
  | nil => rfl
  | cons p rest ih =>
      obtain ⟨k, j⟩ := p
      by_cases hk : k = id
      · simp [updateJob, lookupJob, hk]
      · simp [updateJob, lookupJob, hk, ih]

theorem lookupJob_updateJob_other (st : JobStore) (id id2 : String) (f : Job → Job)
    (h : id2 ≠ id) : lookupJob (updateJob st id f) id2 = lookupJob st id2 := by
  induction st with
  | nil => rfl
  | cons p rest ih =>
      obtain ⟨k, j⟩ := p
      by_cases hk : k = id
      · subst hk
        simp [updateJob, lookupJob, Ne.symm h]
      · by_cases hk2 : k = id2
        · simp [updateJob, lookupJob, hk, hk2, h]
        · simp [updateJob, lookupJob, hk, hk2, ih]

/-! ## C6 — translating-phase progress rescaling -/

/-- C6: during the translating phase, every progress value `p ∈ [0,100]`
received from the engine is written to the job store rescaled as
`20 + p*0.75`, which is at least 20 and at most 95. -/
theorem translating_progress_rescaled_bounded (id extractedPath : String) (env : OrchEnv)
    (p : ℚ) (hmem : p ∈ env.engineProgress) (h0 : 0 ≤ p) (h1 : p ≤ 100) :
    StoreOp.setProgress id (scaledProgress p) ∈ translatingOps id extractedPath env ∧
    scaledProgress p = 20 + p * 0.75 ∧
    20 ≤ scaledProgress p ∧ scaledProgress p ≤ 95 := by
  refine ⟨?_, rfl, ?_, ?_⟩
  · unfold translatingOps
    refine List.mem_append_left _ (List.mem_append_right _ ?_)
    exact List.mem_map_of_mem _ hmem
  · unfold scaledProgress
    nlinarith
  · unfold scaledProgress
    nlinarith

/-- Witness for C6 at `p = 100`: the write is `95`, the stated maximum. -/
theorem translating_progress_rescaled_bounded_witness :
    StoreOp.setProgress "j" (scaledProgress 100) ∈
      translatingOps "j" "movie.srt"
        { detect := .ok .subtitleSRT
          fileExists := true
          ffmpegInit := .ok ()
          tracks := .ok 0
          extractResult := .ok "movie.srt"
          extractedExists := true
          engineProgress := [100]
          translateResult := .ok () } ∧
    scaledProgress 100 = 20 + 100 * 0.75 ∧
    20 ≤ scaledProgress 100 ∧ scaledProgress 100 ≤ 95 :=
  translating_progress_rescaled_bounded "j" "movie.srt" _ 100 (by decide)
    (by norm_num) (by norm_num)

/-! ## C10 — `SetJobError` frame effect -/

/-- C10: for an existing job, `SetJobError` changes only the status (to
`failed`), the result error message and the update timestamp; every other
field — in particular `progress` — is left exactly as it was, and all other
jobs are untouched. -/
theorem setJobError_frame (st : JobStore) (id msg : String) (now : ℕ) (j : Job)
    (h : lookupJob st id = some j) :
    (∃ j2, lookupJob (setJobError st id msg now) id = some j2 ∧
      j2.status = .failed ∧
      j2.result.error = msg ∧
      j2.updatedAt = now ∧
      j2.progress = j.progress ∧
      j2.result.outputPath = j.result.outputPath ∧
      j2.id = j.id ∧
      j2.path = j.path ∧
      j2.trackIndex = j.trackIndex ∧
      j2.createdAt = j.createdAt) ∧
    ∀ id2, id2 ≠ id → lookupJob (setJobError st id msg now) id2 = lookupJob st id2 := by
  have hl : lookupJob (setJobError st id msg now) id =
      some { j with
              status := .failed
              result := { j.result with error := msg }
              updatedAt := now } := by
    unfold setJobError
    rw [lookupJob_updateJob_self, h]
    rfl
  refine ⟨⟨_, hl, rfl, rfl, rfl, rfl, rfl, rfl, rfl, rfl, rfl⟩, ?_⟩
  intro id2 hne
  exact lookupJob_updateJob_other _ _ _ _ hne

/-- Witness for C10 on a one-job store: the failed job keeps its previous
progress value 42. -/
theorem setJobError_frame_witness :
    (∃ j2,
      lookupJob (setJobError sampleStore "j" "boom" 7) "j" = some j2 ∧
      j2.status = .failed ∧
      j2.result.error = "boom" ∧
      j2.updatedAt = 7 ∧
      j2.progress = sampleJob.progress ∧
      j2.result.outputPath = sampleJob.result.outputPath ∧
      j2.id = sampleJob.id ∧
      j2.path = sampleJob.path ∧
      j2.trackIndex = sampleJob.trackIndex ∧
      j2.createdAt = sampleJob.createdAt) ∧
    ∀ id2, id2 ≠ "j" →
      lookupJob (setJobError sampleStore "j" "boom" 7) id2 = lookupJob sampleStore id2 :=
  setJobError_frame sampleStore "j" "boom" 7 sampleJob rfl

theorem lookupJob_mem (st : JobStore) (id : String) (j : Job)
    (h : lookupJob st id = some j) : (id, j) ∈ st := by
  induction st with
  | nil => exact absurd h (by simp [lookupJob])
  | cons p rest ih =>
      obtain ⟨k, j0⟩ := p
      by_cases hk : k = id
      · subst hk
        simp only [lookupJob, if_pos] at h
        rw [Option.some.injEq] at h
        subst h
        exact List.mem_cons_self _ _
      · simp only [lookupJob, if_neg hk] at h
        exact List.mem_cons_of_mem _ (ih h)

theorem mem_updateJob (st : JobStore) (id : String) (f : Job → Job) (x : String × Job)
    (h : x ∈ updateJob st id f) :
    x ∈ st ∨ ∃ j, lookupJob st id = some j ∧ x = (id, f j) := by
  induction st with
  | nil => exact absurd h (by simp [updateJob])
  | cons p rest ih =>
      obtain ⟨k, j0⟩ := p
      by_cases hk : k = id
      · subst hk
        simp only [updateJob, if_pos rfl] at h
        rcases List.mem_cons.mp h with h1 | h1
        · exact Or.inr ⟨j0, by simp [lookupJob], h1⟩
        · exact Or.inl (List.mem_cons_of_mem _ h1)
      · simp only [updateJob, if_neg hk] at h
        rcases List.mem_cons.mp h with h1 | h1
        · exact Or.inl (h1 ▸ List.mem_cons_self _ _)
        · rcases ih h1 with h2 | ⟨j, hj, hx⟩
          · exact Or.inl (List.mem_cons_of_mem _ h2)
          · exact Or.inr ⟨j, by simp [lookupJob, hk, hj], hx⟩

theorem jobResultInvariant_nonterminal (j : Job) (h : j.status.isTerminal = false)
    (hinv : jobResultInvariant j = true) :
    j.result.outputPath = "" ∧ j.result.error = "" := by
  unfold jobResultInvariant at hinv
  cases hs : j.status <;> rw [hs] at hinv h <;> simp_all [JobStatus.isTerminal]

/-- Each well-formed operation preserves the terminal-result invariant. -/
theorem applyOp_preserves_invariant (st : JobStore) (op : StoreOp) (now : ℕ)
    (hw : wellFormedOp st op = true) (hinv : storeInvariant st = true) :
    storeInvariant (applyOp st op now) = true := by
  unfold storeInvariant at hinv ⊢
  rw [List.all_eq_true] at hinv ⊢
  cases op with
  | create id path ti =>
      intro x hx
      simp only [applyOp, createJob, insertJob] at hx
      rcases List.mem_cons.mp hx with h1 | h1
      · subst h1
        rfl
      · exact hinv x (List.mem_filter.mp h1).1
  | setStatus id s =>
      rw [wellFormedOp, Bool.and_eq_true] at hw
      intro x hx
      simp only [applyOp, updateJobStatus] at hx
      rcases mem_updateJob _ _ _ _ hx with h1 | ⟨j, hj, hx2⟩
      · exact hinv x h1
      · subst hx2
        have hjnt : j.status.isTerminal = false := by
          have := hw.2
          rw [hj] at this
          simpa using this
        have hfields := jobResultInvariant_nonterminal j hjnt
          (hinv _ (lookupJob_mem _ _ _ hj))
        have hsnt : s.isTerminal = false := by simpa using hw.1
        cases s <;>
          simp_all [jobResultInvariant, JobStatus.isTerminal]
  | setProgress id p =>
      intro x hx
      simp only [applyOp, updateJobProgress] at hx
      rcases mem_updateJob _ _ _ _ hx with h1 | ⟨j, hj, hx2⟩
      · exact hinv x h1
      · subst hx2
        have := hinv _ (lookupJob_mem _ _ _ hj)
        simpa [jobResultInvariant] using this
  | setResult id path =>
      rw [wellFormedOp, Bool.and_eq_true] at hw
      intro x hx
      simp only [applyOp, setJobResult] at hx
      rcases mem_updateJob _ _ _ _ hx with h1 | ⟨j, hj, hx2⟩
      · exact hinv x h1
      · subst hx2
        have hjnt : j.status.isTerminal = false := by
          have := hw.2
          rw [hj] at this
          simpa using this
        have hfields := jobResultInvariant_nonterminal j hjnt
          (hinv _ (lookupJob_mem _ _ _ hj))
        have hpath : path ≠ "" := by simpa using hw.1
        simp [jobResultInvariant, hfields.2, hpath]
  | setError id msg =>
      rw [wellFormedOp, Bool.and_eq_true] at hw
      intro x hx
      simp only [applyOp, setJobError] at hx
      rcases mem_updateJob _ _ _ _ hx with h1 | ⟨j, hj, hx2⟩
      · exact hinv x h1
      · subst hx2
        have hjnt : j.status.isTerminal = false := by
          have := hw.2
          rw [hj] at this
          simpa using this
        have hfields := jobResultInvariant_nonterminal j hjnt
          (hinv _ (lookupJob_mem _ _ _ hj))
        have hmsg : msg ≠ "" := by simpa using hw.1
        simp [jobResultInvariant, hfields.1, hmsg]

/-! ## C7 — terminal-result invariant of the job store -/

/-- C7 counterexample: the invariant does **not** hold after every sequence
of store operations — `UpdateJobStatus` can move a fresh job to `completed`
with neither result field set. -/
theorem jobStore_invariant_counterexample :
    storeInvariant (applyOps [] 0 cexOps7) = false := by decide

/-- C7 amended: the terminal-result invariant (completed ⇒ exactly the
output path set, failed ⇒ exactly the error set, non-terminal ⇒ neither)
holds after any sequence of store operations in which terminal statuses are
reached only through `SetJobResult`/`SetJobError`, called with a non-empty
payload on a not-yet-terminal job. -/
theorem jobStore_invariant_preserved (st : JobStore) (now : ℕ) (ops : List StoreOp)
    (hw : wellFormedOps st now ops = true) (hinv : storeInvariant st = true) :
    storeInvariant (applyOps st now ops) = true := by
  induction ops generalizing st now with
  | nil => exact hinv
  | cons op rest ih =>
      rw [wellFormedOps, Bool.and_eq_true] at hw
      exact ih _ _ hw.2 (applyOp_preserves_invariant st op now hw.1 hinv)

/-- Witness for C7 amended: a create → processing → result run keeps the
invariant. -/
theorem jobStore_invariant_preserved_witness :
    wellFormedOps [] 0 wfOps7 = true ∧ storeInvariant (applyOps [] 0 wfOps7) = true :=
  ⟨by decide, jobStore_invariant_preserved [] 0 wfOps7 (by decide) rfl⟩

/-! ## C9 — the orchestrator's first steps -/

/-- C9 counterexample: when file-type detection fails, the run never wrote
progress 1 — the two writes before detection are status `processing` and
progress **0**, so the failed job reports progress 0, not 1. -/
theorem processJob_detect_fail_counterexample :
    processJobOps cexJob9 detectFailEnv =
      [StoreOp.setStatus "j" .processing, StoreOp.setProgress "j" 0,
       StoreOp.setError "j" "error detecting file type: boom"] ∧
    ∃ j2, lookupJob (applyOps cexStore9 1 (processJobOps cexJob9 detectFailEnv)) "j" = some j2 ∧
      j2.status = .failed ∧ j2.progress = 0 ∧ ¬j2.progress = 1 := by
  refine ⟨rfl, ?_⟩
  refine ⟨_, rfl, rfl, rfl, ?_⟩
  decide

/-- C9 amended: `ProcessJob` first sets status `processing` and progress 0;
the value 1 is written only after source-kind detection succeeds, so a job
that fails at detection still reports progress 0 (with status `failed`). -/
theorem processJob_first_steps (job : Job) (env : OrchEnv) :
    (processJobOps job env).take 2 =
      [StoreOp.setStatus job.id .processing, StoreOp.setProgress job.id 0] ∧
    (∀ e, env.detect = .error e →
      processJobOps job env =
        [StoreOp.setStatus job.id .processing, StoreOp.setProgress job.id 0,
         StoreOp.setError job.id ("error detecting file type: " ++ e)]) ∧
    (∀ ft, env.detect = .ok ft →
      (processJobOps job env).take 3 =
        [StoreOp.setStatus job.id .processing, StoreOp.setProgress job.id 0,
         StoreOp.setProgress job.id 1]) ∧
    (∀ e, env.detect = .error e → ∀ st now j, lookupJob st job.id = some j →
      ∃ j2, lookupJob (applyOps st now (processJobOps job env)) job.id = some j2 ∧
        j2.progress = 0 ∧ j2.status = .failed) := by
  refine ⟨rfl, ?_, ?_, ?_⟩
  · intro e he
    simp [processJobOps, he]
  · intro ft hft
    simp [processJobOps, hft]
  · intro e he st now j hj
    have hl : lookupJob (applyOps st now (processJobOps job env)) job.id =
        some { j with
                status := .failed
                progress := 0
                result := { j.result with error := "error detecting file type: " ++ e }
                updatedAt := now + 1 + 1 } := by
      simp only [processJobOps, he]
      simp only [List.cons_append, List.nil_append]
      simp only [applyOps, applyOp, updateJobStatus, updateJobProgress, setJobError]
      rw [lookupJob_updateJob_self, lookupJob_updateJob_self, lookupJob_updateJob_self, hj]
      rfl
    exact ⟨_, hl, rfl, rfl⟩

/-! ## Engine merge lemmas -/

theorem applyItem_lines_getElem? (it : Astisub.Item) (tr : Subtitle) (i : ℕ) :
    (applyItem it tr).lines[i]? = (it.lines[i]?).map fun line =>
      match tr.lines[i]? with
      | some tl =>
          { line with
            items := line.items.mapIdx fun j x =>
              match tl.items[j]? with
              | some tx => { x with text := tx.text }
              | none => x }
      | none => line := by
  simp [applyItem, List.getElem?_mapIdx]

theorem applyTranslations_getElem? (items : List Astisub.Item)
    (translations : List Subtitle) (k : ℕ) :
    (applyTranslations items translations)[k]? = (items[k]?).map fun it =>
      match translations.find? (fun tr => tr.index == it.index) with
      | some tr => applyItem it tr
      | none => it := by
  simp [applyTranslations, List.getElem?_map]

/-! ## C8 — the engine preserves entry structure -/

/-- C8: the engine keeps the same entries in the same order with the same
count; per entry it preserves index, timing, line count, voice names, run
counts and run styles (only run text may change); an entry with no matching
translation is returned unchanged, and lines beyond the translation's line
count, or runs beyond a translated line's run count, are returned exactly as
in the original. -/
theorem engine_preserves_structure (items : List Astisub.Item) (batchSize : ℕ)
    (responses : ℕ → Option (List Subtitle)) (arrival : List (List Subtitle)) :
    ∃ out, TranslateSubtitles items batchSize responses arrival = Except.ok out ∧
      out.length = items.length ∧
      ∀ (k : ℕ) (e : Astisub.Item), items[k]? = some e →
        ∃ o : Astisub.Item, out[k]? = some o ∧
        o.index = e.index ∧ o.startAt = e.startAt ∧ o.endAt = e.endAt ∧
        o.lines.length = e.lines.length ∧
        (∀ (i : ℕ) (el : Astisub.Line), e.lines[i]? = some el →
          ∃ ol : Astisub.Line, o.lines[i]? = some ol ∧
          ol.voiceName = el.voiceName ∧ ol.items.length = el.items.length ∧
          ∀ (j : ℕ) (ex : Astisub.LineItem), el.items[j]? = some ex →
            ∃ ox : Astisub.LineItem, ol.items[j]? = some ox ∧
            ox.style = ex.style) ∧
        ((sortByIndex arrival.flatten).find? (fun tr => tr.index == e.index) = none →
          o = e) ∧
        ∀ tr : Subtitle,
          (sortByIndex arrival.flatten).find? (fun tr2 => tr2.index == e.index) =
            some tr →
          (∀ i : ℕ, tr.lines.length ≤ i → o.lines[i]? = e.lines[i]?) ∧
          ∀ (i : ℕ) (el ol : Astisub.Line) (tl : Line),
            e.lines[i]? = some el → o.lines[i]? = some ol →
            tr.lines[i]? = some tl →
            ∀ j : ℕ, tl.items.length ≤ j → ol.items[j]? = el.items[j]? := by
  refine ⟨_, rfl, by simp [applyTranslations], ?_⟩
  intro k e he
  cases hfind : (sortByIndex arrival.flatten).find? (fun tr => tr.index == e.index) with
  | none =>
      refine ⟨e, ?_, rfl, rfl, rfl, rfl, ?_, fun _ => rfl, ?_⟩
      · rw [applyTranslations_getElem?, he]
        simp [hfind]
      · intro i el hel
        exact ⟨el, hel, rfl, rfl, fun j ex hex => ⟨ex, hex, rfl⟩⟩
      · intro tr htr
        exact Option.noConfusion htr
  | some tr =>
      refine ⟨applyItem e tr, ?_, rfl, rfl, rfl, by simp [applyItem], ?_, ?_, ?_⟩
      · rw [applyTranslations_getElem?, he]
        simp [hfind]
      · intro i el hel
        rw [applyItem_lines_getElem?, hel]
        cases htl : tr.lines[i]? with
        | none =>
            exact ⟨el, rfl, rfl, rfl, fun j ex hex => ⟨ex, hex, rfl⟩⟩
        | some tl =>
            refine ⟨_, rfl, rfl, by simp, ?_⟩
            intro j ex hex
            rw [List.getElem?_mapIdx, hex]
            cases htx : tl.items[j]? with
            | none => exact ⟨ex, rfl, rfl⟩
            | some tx => exact ⟨_, rfl, rfl⟩
      · intro hnone
        exact Option.noConfusion hnone
      · intro tr2 htr2
        rw [Option.some.injEq] at htr2
        subst htr2
        constructor
        · intro i hi
          rw [applyItem_lines_getElem?]
          have htl : tr.lines[i]? = none := List.getElem?_eq_none hi
          cases hel : e.lines[i]? with
          | none => rfl
          | some el => simp [htl]
        · intro i el ol tl hel hol htl j hj
          rw [applyItem_lines_getElem?, hel, htl] at hol
          rw [Option.map_some', Option.some.injEq] at hol
          subst hol
          rw [List.getElem?_mapIdx]
          have htx : tl.items[j]? = none := List.getElem?_eq_none hj
          cases hex : el.items[j]? with
          | none => rfl
          | some ex => simp [htx]

/-- Witness for C8 on a small concrete run: one entry, a translation with
fewer runs than the entry — the second run is untouched. -/
theorem engine_preserves_structure_witness :
    ∃ out,
      TranslateSubtitles
        [{ index := 1, startAt := 0, endAt := 2,
           lines := [{ voiceName := "v",
                       items := [{ style := "b", text := "hello" },
                                 { style := "i", text := "world" }] }] }]
        1 (fun _ => some [{ index := 1, lines := [{ items := [{ text := "cześć" }] }] }])
        [[{ index := 1, lines := [{ items := [{ text := "cześć" }] }] }]] =
        Except.ok out ∧
      out.length = 1 := by
  obtain ⟨out, hok, hlen, _⟩ :=
    engine_preserves_structure
      [{ index := 1, startAt := 0, endAt := 2,
         lines := [{ voiceName := "v",
                     items := [{ style := "b", text := "hello" },
                               { style := "i", text := "world" }] }] }]
      1 (fun _ => some [{ index := 1, lines := [{ items := [{ text := "cześć" }] }] }])
      [[{ index := 1, lines := [{ items := [{ text := "cześć" }] }] }]]
  exact ⟨out, hok, hlen⟩

/-! ## Permutation lemmas for the merge -/

theorem find?_eq_head?_filter (p : Subtitle → Bool) (l : List Subtitle) :
    l.find? p = (l.filter p).head? := by
  induction l with
  | nil => rfl
  | cons a l ih =>
      cases hpa : p a
      · rw [List.find?_cons, List.filter_cons, hpa]
        exact ih
      · rw [List.find?_cons, List.filter_cons, hpa]
        rfl

theorem find?_perm_of_unique {l1 l2 : List Subtitle} (p : Subtitle → Bool)
    (h : l1.Perm l2) (hu : (l1.filter p).length ≤ 1) : l1.find? p = l2.find? p := by
  have hf : (l1.filter p).Perm (l2.filter p) := h.filter p
  have heq : l1.filter p = l2.filter p := by
    cases hl : l1.filter p with
    | nil =>
        rw [hl] at hf
        exact hf.nil_eq
    | cons a t =>
        rw [hl] at hu hf
        cases t with
        | nil => exact List.singleton_perm.mp hf
        | cons b t2 => simp at hu
  rw [find?_eq_head?_filter, find?_eq_head?_filter, heq]

theorem filter_index_length_le_one (l : List Subtitle) (idx : ℤ)
    (hnodup : (l.map Subtitle.index).Nodup) :
    (l.filter fun tr => tr.index == idx).length ≤ 1 := by
  induction l with
  | nil => simp
  | cons a l ih =>
      rw [List.map_cons, List.nodup_cons] at hnodup
      cases hpa : (a.index == idx) with
      | false => simpa [List.filter_cons, hpa] using ih hnodup.2
      | true =>
          have haidx : a.index = idx := by simpa using hpa
          have hnil : (l.filter fun tr => tr.index == idx) = [] := by
            rw [List.filter_eq_nil_iff]
            intro x hx hpx
            have hxidx : x.index = idx := by simpa using hpx
            exact hnodup.1 (haidx ▸ hxidx ▸ List.mem_map_of_mem Subtitle.index hx)
          simp [List.filter_cons, hpa, hnil]

/-! ## Batch partition lemmas -/

theorem batchCount_zero (bs : ℕ) (hbs : 0 < bs) : batchCount 0 bs = 0 := by
  unfold batchCount
  exact Nat.div_eq_of_lt (by omega)

theorem batchCount_pos_step (bs n : ℕ) (hbs : 0 < bs) (hn : 0 < n) :
    batchCount n bs = batchCount (n - bs) bs + 1 := by
  unfold batchCount
  have h1 : n + bs - 1 = (n - 1) + bs := by omega
  rw [h1, Nat.add_div_right _ hbs]
  by_cases hc : bs ≤ n
  · have h2 : n - bs + bs - 1 = n - 1 := by omega
    rw [h2]
  · have h2 : n - bs = 0 := by omega
    rw [h2]
    have h3 : (n - 1) / bs = 0 := Nat.div_eq_of_lt (by omega)
    have h4 : (0 + bs - 1) / bs = 0 := Nat.div_eq_of_lt (by omega)
    rw [h3, h4]

theorem batchOf_zero (items : List Astisub.Item) (bs : ℕ) :
    batchOf items bs 0 = items.take bs := by
  simp [batchOf]

theorem batchOf_succ (items : List Astisub.Item) (bs i : ℕ) :
    batchOf items bs (i + 1) = batchOf (items.drop bs) bs i := by
  unfold batchOf
  rw [List.drop_drop]
  congr 2
  ring

/-- The batches partition the input: concatenating the
`ceil(n/batchSize)` contiguous batches gives back the input. -/
theorem flatten_batches (bs : ℕ) (hbs : 0 < bs) (items : List Astisub.Item) :
    ((List.range (batchCount items.length bs)).map (batchOf items bs)).flatten = items := by
  suffices H : ∀ (n : ℕ) (l : List Astisub.Item), l.length = n →
      ((List.range (batchCount l.length bs)).map (batchOf l bs)).flatten = l from
    H items.length items rfl
  intro n
  induction n using Nat.strong_induction_on with
  | _ n ih =>
      intro l hlen
      cases l with
      | nil =>
          rw [List.length_nil, batchCount_zero bs hbs]
          rfl
      | cons a t =>
          have hn0 : 0 < n := by rw [← hlen]; simp
          have hK := batchCount_pos_step bs (a :: t).length hbs (by simp)
          rw [hK, List.range_succ_eq_map, List.map_cons, List.flatten_cons,
            List.map_map, batchOf_zero]
          have hstep : ∀ i ∈ List.range (batchCount ((a :: t).length - bs) bs),
              (batchOf (a :: t) bs ∘ Nat.succ) i = batchOf ((a :: t).drop bs) bs i := by
            intro i _
            exact batchOf_succ (a :: t) bs i
          rw [List.map_congr_left hstep]
          have hlen2 : ((a :: t).drop bs).length = n - bs := by
            rw [List.length_drop, hlen]
          have ih2 := ih (n - bs) (by omega) ((a :: t).drop bs) hlen2
          rw [hlen2] at ih2
          have hlen3 : (a :: t).length - bs = n - bs := by rw [hlen]
          rw [hlen3, ih2, List.take_append_drop]

theorem sublist_flatten {α : Type _} {l1 l2 : List (List α)} (h : l1.Sublist l2) :
    l1.flatten.Sublist l2.flatten := by
  induction h with
  | slnil => exact List.Sublist.refl _
  | cons a _ ih => exact ih.trans (List.sublist_append_right a _)
  | cons₂ a _ ih => exact ih.append_left a

theorem filterMap_sublist_map {α β : Type _} (l : List α) (F : α → Option β) (G : α → β)
    (h : ∀ a ∈ l, ∀ y, F a = some y → y = G a) :
    (l.filterMap F).Sublist (l.map G) := by
  induction l with
  | nil => simp
  | cons a t ih =>
      rw [List.filterMap_cons, List.map_cons]
      cases hFa : F a with
      | none => exact (ih fun x hx => h x (List.mem_cons_of_mem _ hx)).cons _
      | some y =>
          have hy : y = G a := h a (List.mem_cons_self _ _) y hFa
          rw [hy]
          exact (ih fun x hx => h x (List.mem_cons_of_mem _ hx)).cons₂ _

theorem mem_batchOf {items : List Astisub.Item} {bs i : ℕ} {x : Astisub.Item}
    (hx : x ∈ batchOf items bs i) : ∃ k, k < bs ∧ items[i * bs + k]? = some x := by
  rw [batchOf] at hx
  rcases List.mem_iff_getElem?.mp hx with ⟨k, hk⟩
  rw [List.getElem?_take] at hk
  by_cases hkbs : k < bs
  · rw [if_pos hkbs, List.getElem?_drop] at hk
    exact ⟨k, hkbs, hk⟩
  · rw [if_neg hkbs] at hk
    exact absurd hk (by simp)

theorem index_injective (items : List Astisub.Item)
    (hnodup : (items.map Astisub.Item.index).Nodup)
    {p1 p2 : ℕ} {e1 e2 : Astisub.Item}
    (h1 : items[p1]? = some e1) (h2 : items[p2]? = some e2)
    (hidx : e1.index = e2.index) : p1 = p2 := by
  have hm1 : (items.map Astisub.Item.index)[p1]? = some e1.index := by
    rw [List.getElem?_map, h1]
    rfl
  have hm2 : (items.map Astisub.Item.index)[p2]? = some e2.index := by
    rw [List.getElem?_map, h2]
    rfl
  have hp1 : p1 < (items.map Astisub.Item.index).length := by
    rcases List.getElem?_eq_some_iff.mp hm1 with ⟨h, _⟩
    exact h
  exact List.getElem?_inj hp1 hnodup (by rw [hm1, hm2, hidx])

theorem find?_unique_mem {l : List Subtitle} {p : Subtitle → Bool} {tr : Subtitle}
    (hu : (l.filter p).length ≤ 1) (htr : tr ∈ l) (hptr : p tr = true) :
    l.find? p = some tr := by
  have hmem : tr ∈ l.filter p := List.mem_filter.mpr ⟨htr, hptr⟩
  rw [find?_eq_head?_filter]
  cases hl : l.filter p with
  | nil =>
      rw [hl] at hmem
      exact absurd hmem (List.not_mem_nil tr)
  | cons x t =>
      rw [hl] at hmem hu
      cases t with
      | nil =>
          rw [List.mem_singleton.mp hmem]
          rfl
      | cons y t2 => simp at hu

/-- With every successful response carrying exactly its own batch's entry
indices, the combined successful results have pairwise distinct indices
whenever the input entries do. -/
theorem batchResults_index_nodup (items : List Astisub.Item) (bs : ℕ)
    (responses : ℕ → Option (List Subtitle)) (hbs : 0 < bs)
    (hnodup : (items.map Astisub.Item.index).Nodup)
    (hresp : ∀ i, i < batchCount items.length bs → ∀ r, responses i = some r →
      r.map Subtitle.index = (batchOf items bs i).map Astisub.Item.index) :
    ((batchResults items bs responses).flatten.map Subtitle.index).Nodup := by
  rw [List.map_flatten]
  have h2 : (batchResults items bs responses).map (List.map Subtitle.index) =
      (List.range (batchCount items.length bs)).filterMap
        fun i => (responses i).map (List.map Subtitle.index) := by
    rw [batchResults, List.map_filterMap]
  have h3 : ((List.range (batchCount items.length bs)).filterMap
        fun i => (responses i).map (List.map Subtitle.index)).Sublist
      ((List.range (batchCount items.length bs)).map
        fun i => (batchOf items bs i).map Astisub.Item.index) := by
    refine filterMap_sublist_map _ _ _ ?_
    intro i hi y hy
    cases hri : responses i with
    | none => rw [hri] at hy; exact absurd hy (by simp)
    | some r =>
        rw [hri, Option.map_some', Option.some.injEq] at hy
        rw [← hy, hresp i (List.mem_range.mp hi) r hri]
  have h5 : ((List.range (batchCount items.length bs)).map
        fun i => (batchOf items bs i).map Astisub.Item.index).flatten =
      items.map Astisub.Item.index := by
    have : ((List.range (batchCount items.length bs)).map
        fun i => (batchOf items bs i).map Astisub.Item.index) =
        (((List.range (batchCount items.length bs)).map (batchOf items bs)).map
          (List.map Astisub.Item.index)) := by
      rw [List.map_map]
      rfl
    rw [this, ← List.map_flatten, flatten_batches bs hbs items]
  rw [h2]
  exact ((sublist_flatten h3).nodup (h5 ▸ hnodup))

/-! ## C2 — partial failure containment -/

/-- C2 counterexample: with two entries sharing index 1 (split into two
one-entry batches), batch 0 fails and batch 1 succeeds with a faithful
translation of its own entry, yet the failing batch's entry does **not**
retain its original text — it picks up the other batch's translation. -/
theorem partial_failure_counterexample :
    cexResp2 0 = none ∧
    cexResp2 1 = some [mkTr 1 "świat"] ∧
    [mkTr 1 "świat"].map Subtitle.index =
      (batchOf cexItems2 1 1).map Astisub.Item.index ∧
    validArrival cexItems2 1 cexResp2 [[mkTr 1 "świat"]] ∧
    TranslateSubtitles cexItems2 1 cexResp2 [[mkTr 1 "świat"]] =
      Except.ok [mkItem 1 "świat", mkItem 1 "świat"] ∧
    cexItems2[0]? = some (mkItem 1 "hello") ∧
    mkItem 1 "świat" ≠ mkItem 1 "hello" := by
  refine ⟨rfl, rfl, by decide, ?_, rfl, by decide, by decide⟩
  unfold validArrival
  decide

/-- C2 amended: assuming additionally that the entries carry pairwise
distinct indices, if exactly one of the K batches fails then the engine
call still returns success, every entry of the failing batch is returned
unchanged, and every entry of a successful batch is returned with its run
text overwritten by its translation (the response element bearing its
index). -/
theorem partial_failure_contained (items : List Astisub.Item) (bs : ℕ)
    (responses : ℕ → Option (List Subtitle)) (arrival : List (List Subtitle))
    (f : ℕ) (hbs : 0 < bs)
    (hnodup : (items.map Astisub.Item.index).Nodup)
    (hf : f < batchCount items.length bs)
    (hfail : responses f = none)
    (hsucc : ∀ i, i < batchCount items.length bs → i ≠ f →
      ∃ r, responses i = some r ∧
        r.map Subtitle.index = (batchOf items bs i).map Astisub.Item.index)
    (harr : validArrival items bs responses arrival) :
    ∃ out, TranslateSubtitles items bs responses arrival = Except.ok out ∧
      out.length = items.length ∧
      (∀ pos, f * bs ≤ pos → pos < (f + 1) * bs → out[pos]? = items[pos]?) ∧
      ∀ i r, i < batchCount items.length bs → i ≠ f → responses i = some r →
        ∀ pos e tr, i * bs ≤ pos → pos < (i + 1) * bs → items[pos]? = some e →
          tr ∈ r → tr.index = e.index → out[pos]? = some (applyItem e tr) := by
  have hresp : ∀ i, i < batchCount items.length bs → ∀ r, responses i = some r →
      r.map Subtitle.index = (batchOf items bs i).map Astisub.Item.index := by
    intro i hi r hri
    by_cases hif : i = f
    · rw [hif, hfail] at hri
      exact absurd hri (by simp)
    · obtain ⟨r2, hr2, hmap2⟩ := hsucc i hi hif
      rw [hri, Option.some.injEq] at hr2
      rw [hr2, hmap2]
  have hSRnodup := batchResults_index_nodup items bs responses hbs hnodup hresp
  have htsperm : (sortByIndex arrival.flatten).Perm
      (batchResults items bs responses).flatten :=
    (List.perm_insertionSort _ arrival.flatten).trans harr.flatten
  have htsnodup : ((sortByIndex arrival.flatten).map Subtitle.index).Nodup :=
    ((htsperm.map Subtitle.index).nodup_iff).mpr hSRnodup
  have hmemSR : ∀ x, x ∈ (batchResults items bs responses).flatten →
      ∃ i r, i < batchCount items.length bs ∧ responses i = some r ∧ x ∈ r := by
    intro x hx
    rcases List.mem_flatten.mp hx with ⟨lst, hlst, hxlst⟩
    rcases List.mem_filterMap.mp hlst with ⟨i, hi, hri⟩
    exact ⟨i, lst, List.mem_range.mp hi, hri, hxlst⟩
  have hbatchpos : ∀ i x, i < batchCount items.length bs → ∀ r, responses i = some r →
      x ∈ r → ∃ pos2 e2, i * bs ≤ pos2 ∧ pos2 < (i + 1) * bs ∧
        items[pos2]? = some e2 ∧ e2.index = x.index := by
    intro i x hi r hri hxr
    have hxidx : x.index ∈ (batchOf items bs i).map Astisub.Item.index := by
      rw [← hresp i hi r hri]
      exact List.mem_map_of_mem Subtitle.index hxr
    rcases List.mem_map.mp hxidx with ⟨e2, he2, he2idx⟩
    rcases mem_batchOf he2 with ⟨k, hk, hpos⟩
    refine ⟨i * bs + k, e2, by omega, ?_, hpos, he2idx⟩
    have : (i + 1) * bs = i * bs + bs := by ring
    omega
  refine ⟨_, rfl, by simp [applyTranslations], ?_, ?_⟩
  · intro pos hlo hhi
    by_cases hlt : pos < items.length
    · obtain ⟨e, he⟩ : ∃ e, items[pos]? = some e :=
        ⟨items.get ⟨pos, hlt⟩, List.getElem?_eq_getElem hlt⟩
      rw [applyTranslations_getElem?, he]
      suffices hfind : (sortByIndex arrival.flatten).find?
          (fun tr => tr.index == e.index) = none by
        rw [Option.map_some', hfind]
      rw [List.find?_eq_none]
      intro x hx hpx
      have hxidx : x.index = e.index := by simpa using hpx
      have hxSR : x ∈ (batchResults items bs responses).flatten :=
        htsperm.mem_iff.mp hx
      rcases hmemSR x hxSR with ⟨i, r, hi, hri, hxr⟩
      have hif : i ≠ f := by
        intro heq
        rw [heq, hfail] at hri
        exact Option.noConfusion hri
      rcases hbatchpos i x hi r hri hxr with ⟨pos2, e2, hlo2, hhi2, hpos2, he2idx⟩
      have heq : pos = pos2 :=
        index_injective items hnodup he hpos2 (by rw [← hxidx, he2idx])
      have hfb : (f + 1) * bs = f * bs + bs := by ring
      have hib : (i + 1) * bs = i * bs + bs := by ring
      rcases Nat.lt_or_ge i f with hc | hc
      · have : (i + 1) * bs ≤ f * bs := Nat.mul_le_mul_right bs (by omega)
        omega
      · have hc2 : f < i := by omega
        have : (f + 1) * bs ≤ i * bs := Nat.mul_le_mul_right bs (by omega)
        omega
    · have h1 : items[pos]? = none := List.getElem?_eq_none (by omega)
      have h2 : (applyTranslations items (sortByIndex arrival.flatten))[pos]? = none := by
        refine List.getElem?_eq_none ?_
        simpa [applyTranslations] using (by omega : items.length ≤ pos)
      rw [h1, h2]
  · intro i r hi hif hri pos e tr hlo hhi he htr hidx
    rw [applyTranslations_getElem?, he]
    have htrts : tr ∈ sortByIndex arrival.flatten := by
      refine htsperm.mem_iff.mpr (List.mem_flatten.mpr ⟨r, ?_, htr⟩)
      exact List.mem_filterMap.mpr ⟨i, List.mem_range.mpr hi, hri⟩
    have hfind : (sortByIndex arrival.flatten).find?
        (fun tr2 => tr2.index == e.index) = some tr := by
      refine find?_unique_mem ?_ htrts (by simpa using hidx)
      exact filter_index_length_le_one _ e.index htsnodup
    rw [Option.map_some', hfind]

/-- Witness for C2 amended: three one-entry batches, the middle one fails;
its entry is untouched while the first entry gets its translation. -/
theorem partial_failure_contained_witness :
    ∃ out, TranslateSubtitles wItems2 1 wResp2 wArr2 = Except.ok out ∧
      out.length = wItems2.length ∧
      out[1]? = wItems2[1]? ∧
      out[0]? = some (applyItem (mkItem 1 "x") (mkTr 1 "a")) := by
  have hsucc : ∀ i, i < batchCount wItems2.length 1 → i ≠ 1 →
      ∃ r, wResp2 i = some r ∧
        r.map Subtitle.index = (batchOf wItems2 1 i).map Astisub.Item.index := by
    intro i hi hif
    have hi3 : i < 3 := by simpa [wItems2, batchCount] using hi
    interval_cases i
    · exact ⟨[mkTr 1 "a"], rfl, by decide⟩
    · exact absurd rfl hif
    · exact ⟨[mkTr 3 "c"], rfl, by decide⟩
  obtain ⟨out, hok, hlen, hfail, hrepl⟩ :=
    partial_failure_contained wItems2 1 wResp2 wArr2 1 (by decide) (by decide)
      (by decide) rfl hsucc (by unfold validArrival; decide)
  refine ⟨out, hok, hlen, ?_, ?_⟩
  · exact hfail 1 (by decide) (by decide)
  · exact hrepl 0 [mkTr 1 "a"] (by decide) (by decide) rfl 0 (mkItem 1 "x")
      (mkTr 1 "a") (by decide) (by decide) (by decide) (by decide) (by decide)

/-! ## C3 — order-independence of the reassembly step -/

/-- C3 counterexample: with two batch results both carrying entryIndex 1
(something "every multiset of per-batch translation results" allows), the
merged output depends on the arrival order, so the merge is **not** a
function of the set of `(entryIndex, translatedLines)` pairs alone. -/
theorem merge_order_counterexample :
    ([[mkTr 1 "a"], [mkTr 1 "b"]] : List (List Subtitle)).Perm
      [[mkTr 1 "b"], [mkTr 1 "a"]] ∧
    validArrival cexItems3 1 cexResp3 [[mkTr 1 "a"], [mkTr 1 "b"]] ∧
    validArrival cexItems3 1 cexResp3 [[mkTr 1 "b"], [mkTr 1 "a"]] ∧
    TranslateSubtitles cexItems3 1 cexResp3 [[mkTr 1 "a"], [mkTr 1 "b"]] =
      Except.ok [mkItem 1 "a", mkItem 2 "y"] ∧
    TranslateSubtitles cexItems3 1 cexResp3 [[mkTr 1 "b"], [mkTr 1 "a"]] =
      Except.ok [mkItem 1 "b", mkItem 2 "y"] ∧
    ([mkItem 1 "a", mkItem 2 "y"] : List Astisub.Item) ≠ [mkItem 1 "b", mkItem 2 "y"] := by
  refine ⟨by decide, ?_, ?_, rfl, rfl, by decide⟩ <;>
    · unfold validArrival
      decide

/-- C3 amended: whenever the combined translation results carry pairwise
distinct entry indices (as they do when every response stays inside its own
batch), the merged entry sequence is the same for every arrival order of
the batch results. -/
theorem merge_order_independent (items : List Astisub.Item) (batchSize : ℕ)
    (responses : ℕ → Option (List Subtitle)) (a1 a2 : List (List Subtitle))
    (hperm : a1.Perm a2)
    (hnodup : (a1.flatten.map Subtitle.index).Nodup) :
    TranslateSubtitles items batchSize responses a1 =
      TranslateSubtitles items batchSize responses a2 := by
  unfold TranslateSubtitles
  have hs : (sortByIndex a1.flatten).Perm (sortByIndex a2.flatten) :=
    ((List.perm_insertionSort _ a1.flatten).trans (hperm.flatten)).trans
      (List.perm_insertionSort _ a2.flatten).symm
  have hnodup1 : ((sortByIndex a1.flatten).map Subtitle.index).Nodup :=
    (((List.perm_insertionSort _ a1.flatten).map Subtitle.index).nodup_iff).mpr hnodup
  congr 1
  unfold applyTranslations
  refine List.map_congr_left ?_
  intro it _
  rw [find?_perm_of_unique _ hs (filter_index_length_le_one _ it.index hnodup1)]

/-- Witness for C3 amended: distinct indices 1 and 2, reversed arrival. -/
theorem merge_order_independent_witness :
    TranslateSubtitles [mkItem 1 "x", mkItem 2 "y"] 1
        (fun i => if i = 0 then some [mkTr 1 "a"] else some [mkTr 2 "b"])
        [[mkTr 1 "a"], [mkTr 2 "b"]] =
      TranslateSubtitles [mkItem 1 "x", mkItem 2 "y"] 1
        (fun i => if i = 0 then some [mkTr 1 "a"] else some [mkTr 2 "b"])
        [[mkTr 2 "b"], [mkTr 1 "a"]] :=
  merge_order_independent _ 1 _ _ _ (by decide) (by decide)

/-! ## C5 — progress once per completed batch (spec-modelled engine) -/

/-- C5 (spec-modelled): over `ceil(n/batchSize)` batches the engine reports
progress exactly once per completed batch, the report after the `j`-th
completion being `(j+1)/totalBatches * 100`, and the final report is 100
once every batch task has finished. -/
theorem engine_progress_once_per_batch (n bs : ℕ) (hbs : 0 < bs) :
    (engineProgressEvents (batchCount n bs)).length = batchCount n bs ∧
    (∀ j, j < batchCount n bs →
      (engineProgressEvents (batchCount n bs))[j]? =
        some (((j + 1 : ℚ) / (batchCount n bs : ℚ)) * 100)) ∧
    (0 < n → (engineProgressEvents (batchCount n bs)).getLast? = some 100) := by
  have hlen : (engineProgressEvents (batchCount n bs)).length = batchCount n bs := by
    rw [engineProgressEvents, List.length_map, List.length_range]
  refine ⟨hlen, ?_, ?_⟩
  · intro j hj
    rw [engineProgressEvents, List.getElem?_map, List.getElem?_range hj]
    rfl
  · intro hn
    have hK : 1 ≤ batchCount n bs := by
      rw [batchCount, Nat.one_le_div_iff hbs]
      omega
    rw [List.getLast?_eq_getElem?, hlen]
    have hlt : batchCount n bs - 1 < batchCount n bs := by omega
    rw [engineProgressEvents, List.getElem?_map, List.getElem?_range hlt]
    have hcast : ((batchCount n bs - 1 : ℕ) + 1 : ℚ) = (batchCount n bs : ℚ) := by
      have h1 : (batchCount n bs - 1) + 1 = batchCount n bs := by omega
      exact_mod_cast congrArg (Nat.cast : ℕ → ℚ) h1
    have hKQ : (batchCount n bs : ℚ) ≠ 0 := by
      have h2 : (0 : ℚ) < (batchCount n bs : ℚ) := by exact_mod_cast hK
      exact ne_of_gt h2
    simp only [Option.map_some']
    rw [hcast, div_self hKQ, one_mul]

/-- Witness for C5 at the spec's end-to-end scenario (62 entries, batch
size 30, hence 3 batches). -/
theorem engine_progress_once_per_batch_witness :
    (engineProgressEvents (batchCount 62 30)).length = batchCount 62 30 ∧
    (engineProgressEvents (batchCount 62 30))[1]? =
      some (((1 + 1 : ℚ) / (batchCount 62 30 : ℚ)) * 100) ∧
    (engineProgressEvents (batchCount 62 30)).getLast? = some 100 :=
  ⟨(engine_progress_once_per_batch 62 30 (by decide)).1,
   (engine_progress_once_per_batch 62 30 (by decide)).2.1 1 (by decide),
   (engine_progress_once_per_batch 62 30 (by decide)).2.2 (by decide)⟩

/-- Witness for C9 amended, at the concrete detection-failure fixture. -/
theorem processJob_first_steps_witness :
    processJobOps cexJob9 detectFailEnv =
      [StoreOp.setStatus "j" .processing, StoreOp.setProgress "j" 0,
       StoreOp.setError "j" ("error detecting file type: " ++ "boom")] ∧
    ∃ j2, lookupJob (applyOps cexStore9 1 (processJobOps cexJob9 detectFailEnv)) "j" = some j2 ∧
      j2.progress = 0 ∧ j2.status = .failed :=
  ⟨(processJob_first_steps cexJob9 detectFailEnv).2.1 "boom" rfl,
   (processJob_first_steps cexJob9 detectFailEnv).2.2.2 "boom" rfl cexStore9 1 cexJob9 rfl⟩

/-! ## C4 — bounded concurrency of the provider calls -/

theorem countEv_eq_zero_of_not_mem {t : List SchedEvent} {i : ℕ} (k : EvKind)
    (h : i ∉ t.map Prod.fst) : countEv t i k = 0 := by
  unfold countEv
  rw [List.length_eq_zero, List.filter_eq_nil_iff]
  intro e he hbe
  have he2 : e = (i, k) := by simpa using hbe
  subst he2
  exact h (List.mem_map_of_mem Prod.fst he)

theorem taskDisciplined_spec {t : List SchedEvent} (h : taskDisciplined t = true) :
    ∀ p, p.IsPrefix t → ∀ i,
      countEv p i .callStart ≤ countEv p i .acquire ∧
      countEv p i .callEnd ≤ countEv p i .callStart ∧
      countEv p i .release ≤ countEv p i .callEnd ∧
      countEv p i .acquire ≤ 1 := by
  intro p hp i
  have hpm : p ∈ t.inits := (List.mem_inits p t).mpr hp
  have hall := List.all_eq_true.mp (List.all_eq_true.mp h p hpm)
  by_cases hi : i ∈ (p.map Prod.fst).dedup
  · have hx := hall i hi
    simp only [Bool.and_eq_true, decide_eq_true_eq] at hx
    exact ⟨hx.1.1.1, hx.1.1.2, hx.1.2, hx.2⟩
  · have hnm : i ∉ p.map Prod.fst := fun hmem => hi (List.mem_dedup.mpr hmem)
    simp [countEv_eq_zero_of_not_mem _ hnm]

theorem semaphoreValid_spec {limit : ℕ} {t : List SchedEvent}
    (h : semaphoreValid limit t = true) :
    ∀ p i, (p ++ [(i, EvKind.acquire)]).IsPrefix t → heldAfter p < limit := by
  intro p i hp
  have hpm : (p ++ [(i, EvKind.acquire)]) ∈ t.inits := (List.mem_inits _ t).mpr hp
  have hx := List.all_eq_true.mp h _ hpm
  rw [List.getLast?_concat] at hx
  simp only [List.dropLast_concat] at hx
  simpa using hx

theorem countKind_concat (p : List SchedEvent) (e : SchedEvent) (k : EvKind) :
    countKind (p ++ [e]) k = countKind p k + if e.2 = k then 1 else 0 := by
  unfold countKind
  rw [List.filter_append, List.length_append]
  congr 1
  by_cases h : e.2 = k
  · simp [List.filter_cons, h]
  · simp [List.filter_cons, h]

theorem heldAfter_le_limit {limit : ℕ} {t : List SchedEvent}
    (hsem : semaphoreValid limit t = true) :
    ∀ p, p.IsPrefix t → heldAfter p ≤ limit := by
  intro p
  induction p using List.reverseRecOn with
  | nil =>
      intro _
      simp [heldAfter, countKind]
  | append_singleton q e ih =>
      intro hp
      have hq : q.IsPrefix t := (List.prefix_append q [e]).trans hp
      obtain ⟨i, k⟩ := e
      cases k with
      | acquire =>
          have hlt := semaphoreValid_spec hsem q i hp
          have heq : heldAfter (q ++ [(i, EvKind.acquire)]) = heldAfter q + 1 := by
            unfold heldAfter
            rw [countKind_concat, countKind_concat]
            push_cast
            simp
            ring
          omega
      | release =>
          have hle := ih hq
          have heq : heldAfter (q ++ [(i, EvKind.release)]) = heldAfter q - 1 := by
            unfold heldAfter
            rw [countKind_concat, countKind_concat]
            push_cast
            simp
            ring
          omega
      | callStart =>
          have hle := ih hq
          have heq : heldAfter (q ++ [(i, EvKind.callStart)]) = heldAfter q := by
            unfold heldAfter
            rw [countKind_concat, countKind_concat]
            simp
          omega
      | callEnd =>
          have hle := ih hq
          have heq : heldAfter (q ++ [(i, EvKind.callEnd)]) = heldAfter q := by
            unfold heldAfter
            rw [countKind_concat, countKind_concat]
            simp
          omega

theorem count_fst_filter (p : List SchedEvent) (i : ℕ) (k : EvKind) :
    ((p.filter fun e => e.2 == k).map Prod.fst).count i = countEv p i k := by
  induction p with
  | nil => rfl
  | cons e q ih =>
      obtain ⟨a, b⟩ := e
      by_cases hb : b = k <;> by_cases ha : a = i <;>
        simp [countEv, List.filter_cons, List.count_cons, hb, ha, Prod.ext_iff] at ih ⊢ <;>
        omega

theorem countKind_eq_sum (p : List SchedEvent) (k : EvKind) :
    countKind p k = ∑ i ∈ (p.map Prod.fst).toFinset, countEv p i k := by
  have h1 : countKind p k = ((p.filter fun e => e.2 == k).map Prod.fst).length := by
    simp [countKind]
  have h2 := List.sum_toFinset_count_eq_length ((p.filter fun e => e.2 == k).map Prod.fst)
  have hsub : ((p.filter fun e => e.2 == k).map Prod.fst).toFinset ⊆
      (p.map Prod.fst).toFinset := by
    intro a ha
    rw [List.mem_toFinset] at ha ⊢
    rcases List.mem_map.mp ha with ⟨e, he, hfst⟩
    exact hfst ▸ List.mem_map_of_mem _ (List.mem_filter.mp he).1
  have h3 : ∑ a ∈ ((p.filter fun e => e.2 == k).map Prod.fst).toFinset,
        ((p.filter fun e => e.2 == k).map Prod.fst).count a =
      ∑ a ∈ (p.map Prod.fst).toFinset,
        ((p.filter fun e => e.2 == k).map Prod.fst).count a := by
    refine Finset.sum_subset hsub ?_
    intro x _ hx
    rw [List.count_eq_zero]
    intro hmem
    exact hx (List.mem_toFinset.mpr hmem)
  rw [h1, ← h2, h3]
  exact Finset.sum_congr rfl fun i _ => count_fst_filter p i k

theorem inFlight_le_heldAfter (p : List SchedEvent)
    (hc : ∀ i, countEv p i .callStart ≤ countEv p i .acquire ∧
      countEv p i .callEnd ≤ countEv p i .callStart ∧
      countEv p i .release ≤ countEv p i .callEnd ∧
      countEv p i .acquire ≤ 1) :
    (inFlight p : ℤ) ≤ heldAfter p := by
  unfold inFlight heldAfter
  rw [countKind_eq_sum, countKind_eq_sum]
  have h1 : ((((p.map Prod.fst).toFinset).filter fun i =>
        countEv p i .callEnd < countEv p i .callStart).card : ℤ) =
      ∑ i ∈ (p.map Prod.fst).toFinset,
        (if countEv p i .callEnd < countEv p i .callStart then (1 : ℤ) else 0) := by
    rw [Finset.card_filter]
    push_cast
    rfl
  rw [h1, Nat.cast_sum, Nat.cast_sum, ← Finset.sum_sub_distrib]
  refine Finset.sum_le_sum ?_
  intro i _
  have hci := hc i
  by_cases hq : countEv p i .callEnd < countEv p i .callStart
  · rw [if_pos hq]
    omega
  · rw [if_neg hq]
    omega

/-- C4: under the engine's permit discipline (each batch task acquires one
of `limit` semaphore slots before its provider call and releases it only
after the call returns, success or failure) and the buffered channel's
admission rule, no prefix of any schedule ever has more than `limit`
provider calls in flight. -/
theorem bounded_concurrency (limit : ℕ) (t : List SchedEvent)
    (hdisc : taskDisciplined t = true) (hsem : semaphoreValid limit t = true) :
    ∀ p, p.IsPrefix t → inFlight p ≤ limit := by
  intro p hp
  have h1 : (inFlight p : ℤ) ≤ heldAfter p :=
    inFlight_le_heldAfter p (taskDisciplined_spec hdisc p hp)
  have h2 : heldAfter p ≤ limit := heldAfter_le_limit hsem p hp
  exact_mod_cast h1.trans h2

/-- Witness for C4 on a concrete 3-task schedule under limit 2. -/
theorem bounded_concurrency_witness :
    taskDisciplined wTrace4 = true ∧ semaphoreValid 2 wTrace4 = true ∧
    inFlight wTrace4 ≤ 2 :=
  ⟨by decide, by decide,
   bounded_concurrency 2 wTrace4 (by decide) (by decide) wTrace4 (List.prefix_refl _)⟩

/-! ## C1 — output path derivation lemmas -/

theorem hasSuffixGo_iff (s sub : List Char) :
    hasSuffixGo s sub = true ↔ ∃ t, s = t ++ sub := by
  unfold hasSuffixGo
  rw [Bool.and_eq_true, decide_eq_true_eq, beq_iff_eq]
  constructor
  · rintro ⟨hlen, hdrop⟩
    have hsplit := List.take_append_drop (s.length - sub.length) s
    rw [hdrop] at hsplit
    exact ⟨s.take (s.length - sub.length), hsplit.symm⟩
  · rintro ⟨t, rfl⟩
    refine ⟨by simp, ?_⟩
    rw [List.length_append, Nat.add_sub_cancel]
    exact List.drop_left t sub

theorem isSuffixOf_eq_hasSuffixGo (s sub : List Char) :
    sub.isSuffixOf s = hasSuffixGo s sub := by
  rw [Bool.eq_iff_iff, List.isSuffixOf_iff_suffix, hasSuffixGo_iff]
  constructor
  · rintro ⟨t, ht⟩
    exact ⟨t, ht.symm⟩
  · rintro ⟨t, ht⟩
    exact ⟨t, ht.symm⟩

theorem lastIndexFrom_eq_self {s sub : List Char} {i : ℕ}
    (h : sub.isPrefixOf (s.drop i) = true) : lastIndexFrom s sub i = i := by
  cases i with
  | zero =>
      unfold lastIndexFrom
      rw [List.drop_zero] at h
      rw [if_pos h]
      simp
  | succ n =>
      unfold lastIndexFrom
      rw [if_pos h]
      push_cast
      ring

theorem lastIndexOf_suffix (t sub : List Char) :
    lastIndexOf (t ++ sub) sub = (t.length : ℤ) := by
  unfold lastIndexOf
  rw [if_pos (by simp)]
  have hlen : (t ++ sub).length - sub.length = t.length := by
    rw [List.length_append, Nat.add_sub_cancel]
  rw [hlen]
  refine lastIndexFrom_eq_self ?_
  rw [List.drop_left]
  exact List.isPrefixOf_iff_prefix.mpr (List.prefix_refl sub)

theorem lastIndexFrom_le (s sub : List Char) (i : ℕ) :
    lastIndexFrom s sub i ≤ (i : ℤ) := by
  induction i with
  | zero =>
      unfold lastIndexFrom
      by_cases h : sub.isPrefixOf s = true
      · rw [if_pos h]
        omega
      · rw [if_neg h]
        omega
  | succ n ih =>
      unfold lastIndexFrom
      by_cases h : sub.isPrefixOf (s.drop (n + 1)) = true
      · rw [if_pos h]
        push_cast
        omega
      · rw [if_neg h]
        push_cast
        omega

theorem lastIndexFrom_le_of_no_match (s sub : List Char) (i B : ℕ)
    (h : ∀ j : ℕ, B < j → j ≤ i → sub.isPrefixOf (s.drop j) = false) :
    lastIndexFrom s sub i ≤ (B : ℤ) := by
  induction i with
  | zero =>
      unfold lastIndexFrom
      by_cases h0 : sub.isPrefixOf s = true
      · rw [if_pos h0]
        omega
      · rw [if_neg h0]
        omega
  | succ n ih =>
      unfold lastIndexFrom
      by_cases hp : sub.isPrefixOf (s.drop (n + 1)) = true
      · rw [if_pos hp]
        by_cases hB : B < n + 1
        · rw [h (n + 1) hB (le_refl _)] at hp
          exact absurd hp Bool.false_ne_true
        · push_cast
          omega
      · rw [if_neg hp]
        exact ih fun j hj hle => h j hj (by omega)

theorem lastIndexOf_le (s sub : List Char) (B : ℕ)
    (h : ∀ j : ℕ, B < j → j ≤ s.length - sub.length → sub.isPrefixOf (s.drop j) = false) :
    lastIndexOf s sub ≤ (B : ℤ) := by
  unfold lastIndexOf
  by_cases hg : sub.length ≤ s.length
  · rw [if_pos hg]
    exact lastIndexFrom_le_of_no_match s sub _ B h
  · rw [if_neg hg]
    omega

theorem drop_append_plus (t u : List Char) (m : ℕ) :
    (t ++ u).drop (t.length + m) = u.drop m := by
  rw [← List.drop_drop, List.drop_left]

theorem maxGo_eq_left {a b : ℤ} (h : b ≤ a) : maxGo a b = a := by
  unfold maxGo
  by_cases hab : a > b
  · rw [if_pos hab]
  · rw [if_neg hab]
    omega

theorem maxGo_eq_right {a b : ℤ} (h : a ≤ b) : maxGo a b = b := by
  unfold maxGo
  by_cases hab : a > b
  · rw [if_pos hab]
    omega
  · rw [if_neg hab]

theorem lastIndexOf_other_of_terminal_long (t LONG SHORT : List Char)
    (hlen : LONG.length = SHORT.length + 1)
    (hexcl : SHORT.isPrefixOf (LONG.drop 1) = false) :
    lastIndexOf (t ++ LONG) SHORT ≤ (t.length : ℤ) := by
  refine lastIndexOf_le _ _ _ ?_
  intro j hj hle
  have hlen2 : (t ++ LONG).length = t.length + LONG.length := List.length_append t LONG
  have hj2 : j = t.length + 1 := by omega
  subst hj2
  have hdrop : (t ++ LONG).drop (t.length + 1) = LONG.drop 1 := drop_append_plus t LONG 1
  rw [hdrop]
  exact hexcl

theorem lastIndexOf_other_of_terminal_short (t LONG SHORT : List Char)
    (hlen : LONG.length = SHORT.length + 1) :
    lastIndexOf (t ++ SHORT) LONG ≤ (t.length : ℤ) := by
  refine lastIndexOf_le _ _ _ ?_
  intro j hj hle
  exfalso
  have hlen2 : (t ++ SHORT).length = t.length + SHORT.length := List.length_append t SHORT
  omega

theorem idx_terminal_long (t LONG SHORT : List Char)
    (hlen : LONG.length = SHORT.length + 1)
    (hexcl : SHORT.isPrefixOf (LONG.drop 1) = false) :
    maxGo (lastIndexOf (t ++ LONG) LONG) (lastIndexOf (t ++ LONG) SHORT) = (t.length : ℤ) := by
  rw [lastIndexOf_suffix]
  exact maxGo_eq_left (lastIndexOf_other_of_terminal_long t LONG SHORT hlen hexcl)

theorem idx_terminal_short (t LONG SHORT : List Char)
    (hlen : LONG.length = SHORT.length + 1) :
    maxGo (lastIndexOf (t ++ SHORT) LONG) (lastIndexOf (t ++ SHORT) SHORT) = (t.length : ℤ) := by
  rw [lastIndexOf_suffix]
  exact maxGo_eq_right (lastIndexOf_other_of_terminal_short t LONG SHORT hlen)

theorem take_toNat_append (t u : List Char) :
    (t ++ u).take ((t.length : ℤ)).toNat = t := by
  rw [Int.toNat_natCast]
  exact List.take_left t u

theorem take_sub_append (t u : List Char) (k : ℕ) (hk : u.length = k) :
    (t ++ u).take ((t ++ u).length - k) = t := by
  rw [List.length_append, hk, Nat.add_sub_cancel]
  exact List.take_left t u

/-- The code's suffix handling coincides with the spec's rule on every
input: the extension-stripped base is compared against the language
suffixes in priority order and the terminal occurrence is replaced. -/
theorem deriveOutputPath_eq_spec (s : List Char) :
    deriveOutputPath s = deriveOutputPathSpec s := by
  simp only [deriveOutputPath, deriveOutputPathSpec, isSuffixOf_eq_hasSuffixGo]
  by_cases hdot : findLastDot s = -1
  · rw [if_pos hdot, if_pos hdot]
  · rw [if_neg hdot, if_neg hdot]
    set base := s.take (findLastDot s).toNat with hbase
    set ext := s.drop (findLastDot s).toNat with hext
    by_cases hL1 : hasSuffixGo base engHiDot = true
    · have hany : hasAnySuffix base [engHiDot, enHiDot] = true := by
        unfold hasAnySuffix
        simp [hL1]
      rw [if_pos hany, if_pos hL1]
      obtain ⟨t, hbt⟩ := (hasSuffixGo_iff _ _).mp hL1
      rw [hbt, idx_terminal_long t engHiDot enHiDot (by decide) (by decide),
        take_toNat_append, take_sub_append t engHiDot 7 (by decide)]
    · by_cases hS1 : hasSuffixGo base enHiDot = true
      · have hany : hasAnySuffix base [engHiDot, enHiDot] = true := by
          unfold hasAnySuffix
          simp [hS1]
        rw [if_pos hany, if_neg hL1, if_pos hS1]
        obtain ⟨t, hbt⟩ := (hasSuffixGo_iff _ _).mp hS1
        rw [hbt, idx_terminal_short t engHiDot enHiDot (by decide),
          take_toNat_append, take_sub_append t enHiDot 6 (by decide)]
      · have hany1 : ¬hasAnySuffix base [engHiDot, enHiDot] = true := by
          unfold hasAnySuffix
          simp [hL1, hS1]
        rw [if_neg hany1, if_neg hL1, if_neg hS1]
        by_cases hL2 : hasSuffixGo base engHiUnd = true
        · have hany : hasAnySuffix base [engHiUnd, enHiUnd] = true := by
            unfold hasAnySuffix
            simp [hL2]
          rw [if_pos hany, if_pos hL2]
          obtain ⟨t, hbt⟩ := (hasSuffixGo_iff _ _).mp hL2
          rw [hbt, idx_terminal_long t engHiUnd enHiUnd (by decide) (by decide),
            take_toNat_append, take_sub_append t engHiUnd 7 (by decide)]
        · by_cases hS2 : hasSuffixGo base enHiUnd = true
          · have hany : hasAnySuffix base [engHiUnd, enHiUnd] = true := by
              unfold hasAnySuffix
              simp [hS2]
            rw [if_pos hany, if_neg hL2, if_pos hS2]
            obtain ⟨t, hbt⟩ := (hasSuffixGo_iff _ _).mp hS2
            rw [hbt, idx_terminal_short t engHiUnd enHiUnd (by decide),
              take_toNat_append, take_sub_append t enHiUnd 6 (by decide)]
          · have hany2 : ¬hasAnySuffix base [engHiUnd, enHiUnd] = true := by
              unfold hasAnySuffix
              simp [hL2, hS2]
            rw [if_neg hany2, if_neg hL2, if_neg hS2]
            by_cases hL3 : hasSuffixGo base engDot = true
            · have hany : hasAnySuffix base [engDot, enDot] = true := by
                unfold hasAnySuffix
                simp [hL3]
              rw [if_pos hany, if_pos hL3]
              obtain ⟨t, hbt⟩ := (hasSuffixGo_iff _ _).mp hL3
              rw [hbt, idx_terminal_long t engDot enDot (by decide) (by decide),
                take_toNat_append, take_sub_append t engDot 4 (by decide)]
            · by_cases hS3 : hasSuffixGo base enDot = true
              · have hany : hasAnySuffix base [engDot, enDot] = true := by
                  unfold hasAnySuffix
                  simp [hS3]
                rw [if_pos hany, if_neg hL3, if_pos hS3]
                obtain ⟨t, hbt⟩ := (hasSuffixGo_iff _ _).mp hS3
                rw [hbt, idx_terminal_short t engDot enDot (by decide),
                  take_toNat_append, take_sub_append t enDot 3 (by decide)]
              · have hany3 : ¬hasAnySuffix base [engDot, enDot] = true := by
                  unfold hasAnySuffix
                  simp [hL3, hS3]
                rw [if_neg hany3, if_neg hL3, if_neg hS3]
                by_cases hL4 : hasSuffixGo base engUnd = true
                · have hany : hasAnySuffix base [engUnd, enUnd] = true := by
                    unfold hasAnySuffix
                    simp [hL4]
                  rw [if_pos hany, if_pos hL4]
                  obtain ⟨t, hbt⟩ := (hasSuffixGo_iff _ _).mp hL4
                  rw [hbt, idx_terminal_long t engUnd enUnd (by decide) (by decide),
                    take_toNat_append, take_sub_append t engUnd 4 (by decide)]
                · by_cases hS4 : hasSuffixGo base enUnd = true
                  · have hany : hasAnySuffix base [engUnd, enUnd] = true := by
                      unfold hasAnySuffix
                      simp [hS4]
                    rw [if_pos hany, if_neg hL4, if_pos hS4]
                    obtain ⟨t, hbt⟩ := (hasSuffixGo_iff _ _).mp hS4
                    rw [hbt, idx_terminal_short t engUnd enUnd (by decide),
                      take_toNat_append, take_sub_append t enUnd 3 (by decide)]
                  · have hany4 : ¬hasAnySuffix base [engUnd, enUnd] = true := by
                      unfold hasAnySuffix
                      simp [hL4, hS4]
                    rw [if_neg hany4, if_neg hL4, if_neg hS4]

/-- C1: the output-path deriver satisfies the spec's seven-point oracle
exactly, and on every input path it agrees with the spec's rule
(`deriveOutputPathSpec`): the extension-stripped base is matched against
the qualifying language suffixes longest-first, the terminal suffix is
replaced at its last occurrence, and `.pl` is appended before the extension
when no suffix qualifies. -/
theorem deriveOutputPath_oracle_and_spec :
    deriveOutputPath "input.srt".toList = "input.pl.srt".toList ∧
    deriveOutputPath "movie.eng.srt".toList = "movie.pl.srt".toList ∧
    deriveOutputPath "movie.eng.hi.srt".toList = "movie.pl.srt".toList ∧
    deriveOutputPath "movie_en.srt".toList = "movie_pl.srt".toList ∧
    deriveOutputPath "movie_en.hi.srt".toList = "movie_pl.srt".toList ∧
    deriveOutputPath "movie.part1.srt".toList = "movie.part1.pl.srt".toList ∧
    deriveOutputPath "subtitle".toList = "subtitle.pl".toList ∧
    ∀ s : List Char, deriveOutputPath s = deriveOutputPathSpec s :=
  ⟨by decide, by decide, by decide, by decide, by decide, by decide, by decide,
   deriveOutputPath_eq_spec⟩
